import Mathlib

set_option maxHeartbeats 1000000

/-!
Verification model of the TokenTrim client-side orchestration layer
(`client/src/hooks/useMultiFileAnalyzer.ts`, `usePipeline.ts`, `useLossless.ts`,
and the `useCompressor` hook bundled in `components/Sidebar.tsx`).

Asynchronous hooks are embedded as explicit transition systems: a state
structure mirrors the hook's React state (plus the in-flight request
bookkeeping held in its `AbortController` map), and an event type covers
every entry point of the hook together with the completion callbacks of
the requests it dispatches.  Completion events for requests that are not
in flight cannot fire in the source; they are modelled as no-ops.
-/

namespace FileAnalyzerHook

/-- Model of `formatSize` from `useFileAnalyzer.ts`.  The source divides by
1024 (resp. 1024²) in double precision and calls `toFixed(1)` (resp.
`toFixed(2)`).  Dividing an integer below 2^53 by a power of two is exact in
double precision, and `toFixed` rounds the exact value to the requested
number of digits, half away from zero; the definition performs the same
rounding in integer arithmetic. -/
def formatSize (bytes : Nat) : String :=
  if bytes < 1024 then
    toString bytes ++ " B"
  else if bytes < 1024 * 1024 then
    let n := (20 * bytes + 1024) / 2048
    toString (n / 10) ++ "." ++ toString (n % 10) ++ " KB"
  else
    let n := (200 * bytes + 1048576) / 2097152
    toString (n / 100) ++ "." ++ (if n % 100 < 10 then "0" ++ toString (n % 100) else toString (n % 100)) ++ " MB"

/-- Record mirroring the `FileAnalysis` interface of `useFileAnalyzer.ts`
(`null` fields become `Option.none`). -/
structure FileAnalysis where
  analyzing : Bool
  language : String
  tokenCount : String
  fileSize : String
  sizeError : Option String
  fetchError : Option String
deriving DecidableEq

end FileAnalyzerHook

namespace MultiFileAnalyzer

open FileAnalyzerHook

/-- Model of a browser `File`: its name and byte size (the contents are
opaque to the orchestration layer). -/
structure FileModel where
  name : String
  size : Nat
deriving DecidableEq

/-- `MAX_BYTES` from `useMultiFileAnalyzer.ts`. -/
def MAX_BYTES : Nat := 10 * 1024 * 1024

/-- Model of `Number.prototype.toLocaleString()` under the en-US default
locale: decimal digits grouped in threes by commas. -/
def commaGroup : List Char → List Char
  | a :: b :: c :: d :: rest => a :: b :: c :: ',' :: commaGroup (d :: rest)
  | l => l

def toLocaleString (n : Nat) : String :=
  ⟨(commaGroup (toString n).data.reverse).reverse⟩

/-- `buildInitialAnalysis` from `useMultiFileAnalyzer.ts`. -/
def buildInitialAnalysis (file : FileModel) : FileAnalysis :=
  if file.size > MAX_BYTES then
    { analyzing := false
      language := "—"
      tokenCount := "—"
      fileSize := formatSize file.size
      sizeError := some ("File is too large (" ++ formatSize file.size ++ "). Maximum is 10 MB.")
      fetchError := none }
  else
    { analyzing := true
      language := "Detecting..."
      tokenCount := "Calculating..."
      fileSize := formatSize file.size
      sizeError := none
      fetchError := none }

/-- The `AnalyzedFile` interface (settled result of a successful analysis). -/
structure AnalyzedFile where
  id : Nat
  fileName : String
  fileSize : Nat
  language : String
  tokenEstimate : Nat
deriving DecidableEq

/-- Body of a successful `/analyze-file` response. -/
structure AnalyzeResponse where
  fileName : String
  fileSize : Nat
  language : String
  tokenEstimate : Nat
deriving DecidableEq

/-- The `FileEntry` interface. -/
structure FileEntry where
  id : Nat
  file : FileModel
  analysis : FileAnalysis
deriving DecidableEq

/-- State of the `useMultiFileAnalyzer` hook: the two `useState` values, the
in-flight fetches (`controllers` map entries, each with its signal's aborted
flag), and the id-generator counter (`genId` is strictly monotone, so it is
modelled as a plain counter). -/
structure AnalyzerState where
  entries : List FileEntry
  resolvedFiles : List AnalyzedFile
  pending : List (Nat × Bool)
  nextId : Nat
deriving DecidableEq

def initState : AnalyzerState := ⟨[], [], [], 0⟩

/-- Success-completion patch of `fetchAnalysis` (the `patchEntry` call in the
`!aborted` branch).  The source's `prev.map` patches every entry whose id
matches. -/
def patchEntrySuccess (id : Nat) (data : AnalyzeResponse) (es : List FileEntry) : List FileEntry :=
  es.map fun e =>
    if e.id == id then
      { e with analysis :=
        { analyzing := false
          language := data.language
          tokenCount := toLocaleString data.tokenEstimate
          fileSize := formatSize data.fileSize
          sizeError := none
          fetchError := none } }
    else e

/-- Failure-completion patch of `fetchAnalysis` (the `catch` branch): only
`analyzing`, `language`, `tokenCount` and `fetchError` are overwritten. -/
def patchEntryFailure (id : Nat) (msg : String) (es : List FileEntry) : List FileEntry :=
  es.map fun e =>
    if e.id == id then
      { e with analysis :=
        { e.analysis with
          analyzing := false
          language := "—"
          tokenCount := "—"
          fetchError := some msg } }
    else e

/-- The `setResolvedFiles` updater of the success branch: replace in place if
the id is already present (re-upload), otherwise append. -/
def upsertResolved (id : Nat) (data : AnalyzeResponse) (rs : List AnalyzedFile) : List AnalyzedFile :=
  let entry : AnalyzedFile :=
    { id := id
      fileName := data.fileName
      fileSize := data.fileSize
      language := data.language
      tokenEstimate := data.tokenEstimate }
  if rs.any (fun f => f.id == id) then
    rs.map (fun f => if f.id == id then entry else f)
  else
    rs ++ [entry]

/-- Events of the hook: its public entry points plus the completion callbacks
of the `fetchAnalysis` requests it dispatches.  `addFiles` over a list is the
sequence of `addFile` events for its elements, in order. -/
inductive AEvent
  | addFile (file : FileModel)
  | completeOk (id : Nat) (data : AnalyzeResponse)
  | completeErr (id : Nat) (msg : String)
  | removeFile (id : Nat)
  | clearFiles
deriving DecidableEq

/-- One transition of `useMultiFileAnalyzer`.  A completion event whose id has
no in-flight request cannot fire in the source and is modelled as a no-op. -/
def step (s : AnalyzerState) (e : AEvent) : AnalyzerState :=
  match e with
  | .addFile f =>
      let id := s.nextId
      { entries := s.entries ++ [⟨id, f, buildInitialAnalysis f⟩]
        resolvedFiles := s.resolvedFiles
        pending := if f.size > MAX_BYTES then s.pending else s.pending ++ [(id, false)]
        nextId := id + 1 }
  | .completeOk id data =>
      match s.pending.find? (fun p => p.1 == id) with
      | none => s
      | some p =>
          let s' := { s with pending := s.pending.filter (fun q => q.1 != id) }
          if p.2 then s'
          else { s' with
                 entries := patchEntrySuccess id data s'.entries
                 resolvedFiles := upsertResolved id data s'.resolvedFiles }
  | .completeErr id msg =>
      match s.pending.find? (fun p => p.1 == id) with
      | none => s
      | some p =>
          let s' := { s with pending := s.pending.filter (fun q => q.1 != id) }
          if p.2 then s'
          else { s' with entries := patchEntryFailure id msg s'.entries }
  | .removeFile id =>
      { entries := s.entries.filter (fun e => e.id != id)
        resolvedFiles := s.resolvedFiles.filter (fun f => f.id != id)
        pending := s.pending.map (fun p => if p.1 == id then (p.1, true) else p)
        nextId := s.nextId }
  | .clearFiles =>
      { entries := []
        resolvedFiles := []
        pending := s.pending.map (fun p => (p.1, true))
        nextId := s.nextId }

def run (s : AnalyzerState) : List AEvent → AnalyzerState
  | [] => s
  | e :: es => run (step s e) es

def Reachable (s : AnalyzerState) : Prop := ∃ tr, run initState tr = s

/-- An analysis record in the settled-successfully shape (the state written by
the success branch of `fetchAnalysis`; `buildInitialAnalysis` never produces
it, and the failure branch never produces it either). -/
def isSuccess (a : FileAnalysis) : Bool :=
  !a.analyzing && a.sizeError.isNone && a.fetchError.isNone

def resolvedIds (s : AnalyzerState) : List Nat := s.resolvedFiles.map (fun f => f.id)

def successIds (s : AnalyzerState) : List Nat :=
  (s.entries.filter (fun e => isSuccess e.analysis)).map (fun e => e.id)

def pendingIds (s : AnalyzerState) : List Nat := s.pending.map (fun p => p.1)

end MultiFileAnalyzer

namespace ChatArea

/-- The `Message` interface of `components/ChatArea.tsx` (role is the union
type `"user" | "assistant"`). -/
structure Message where
  id : String
  role : String
  content : String
deriving DecidableEq

end ChatArea

namespace Stamp

/-- Components of a `Date`, as rendered by `Date.prototype.toISOString`. -/
structure Timestamp where
  year : Nat
  month : Nat
  day : Nat
  hour : Nat
  minute : Nat
  second : Nat
  ms : Nat
deriving DecidableEq

def pad2 (n : Nat) : String :=
  if n < 10 then "0" ++ toString n else toString n

def pad3 (n : Nat) : String :=
  if n < 10 then "00" ++ toString n
  else if n < 100 then "0" ++ toString n
  else toString n

def pad4 (n : Nat) : String :=
  if n < 10 then "000" ++ toString n
  else if n < 100 then "00" ++ toString n
  else if n < 1000 then "0" ++ toString n
  else toString n

/-- The ISO-8601 string up to the seconds field. -/
def isoHead (t : Timestamp) : String :=
  pad4 t.year ++ "-" ++ pad2 t.month ++ "-" ++ pad2 t.day ++ "T" ++
  pad2 t.hour ++ ":" ++ pad2 t.minute ++ ":" ++ pad2 t.second

/-- `Date.prototype.toISOString`: `YYYY-MM-DDTHH:MM:SS.mmmZ`. -/
def toISOString (t : Timestamp) : String :=
  isoHead t ++ "." ++ pad3 t.ms ++ "Z"

/-- Effect of `.replace(/\.\d{3}Z$/, "Z")` on a `toISOString` output: the
trailing `.mmmZ` becomes `Z`. -/
def stripMillis (t : Timestamp) : String :=
  isoHead t ++ "Z"

/-- Effect of `.replace(/[:.]/g, "-")`: every `:` and `.` character becomes
`-`. -/
def replaceColonsDots (s : String) : String :=
  ⟨s.data.map fun c => if c == ':' || c == '.' then '-' else c⟩

/-- The sanitized timestamp `ts` built by both `bundleFilename` helpers. -/
def tsString (t : Timestamp) : String :=
  replaceColonsDots (stripMillis t)

end Stamp

namespace Pipeline

open ChatArea MultiFileAnalyzer Stamp

/-- The four export modes of `usePipeline.ts`. -/
inductive PipelineMode
  | raw
  | compressed
  | noExtension
  | withExtension
deriving DecidableEq

/-- Source name of each mode (the union-type string). -/
def modeName : PipelineMode → String
  | .raw => "raw"
  | .compressed => "compressed"
  | .noExtension => "no-extension"
  | .withExtension => "with-extension"

/-- The `ENDPOINT` record of `usePipeline.ts`. -/
def ENDPOINT : PipelineMode → String
  | .raw => "/pipeline/raw"
  | .compressed => "/pipeline/compressed"
  | .noExtension => "/pipeline/no-extension"
  | .withExtension => "/pipeline/with-extension"

/-- The `PipelineState` interface. -/
structure PipelineState where
  running : Option PipelineMode
  error : Option String
deriving DecidableEq

/-- `messagesToTranscript` from `usePipeline.ts`. -/
def messagesToTranscript (messages : List Message) : String :=
  String.intercalate "\n\n"
    (messages.map fun m =>
      "[" ++ (if m.role == "user" then "User" else "Assistant") ++ "]\n" ++ m.content)

/-- The validity filter `_run` applies to `fileEntries` before appending them
to the form (identical to the filters in `useLossless.ts` and the legacy
`usePipeline`). -/
def validEntry (e : FileEntry) : Bool :=
  e.analysis.sizeError.isNone && e.analysis.fetchError.isNone && !e.analysis.analyzing

/-- The multipart request `_run` posts to the mode's endpoint. -/
structure PipelineRequest where
  endpoint : String
  chat : String
  files : List FileModel
deriving DecidableEq

/-- Synchronous prefix of `_run` in `usePipeline.ts` (lines 71–116): the state
is replaced with `{running: mode, error: null}` and the request is dispatched.
No step of `_run` consults the previous state — there is no guard on
`state.running`. -/
def runStart (mode : PipelineMode) (messages : List Message) (fileEntries : List FileEntry)
    (_s : PipelineState) : PipelineState × Option PipelineRequest :=
  ({ running := some mode, error := none },
   some { endpoint := ENDPOINT mode
          chat := messagesToTranscript messages
          files := (fileEntries.filter validEntry).map (fun e => e.file) })

/-- `bundleFilename` from `usePipeline.ts`, parameterized by the current
time.  The source computes `ext` as `mode === "with-extension" ? "txt" :
"txt"`. -/
def bundleFilename (mode : PipelineMode) (t : Timestamp) : String :=
  let ts := tsString t
  let ext := if mode == .withExtension then "txt" else "txt"
  "tokentrim-" ++ modeName mode ++ "-" ++ ts ++ "." ++ ext

end Pipeline

namespace Lossless

open MultiFileAnalyzer Stamp Pipeline

/-- A file recovered by the decode endpoints (`RecoveredFile`; the source
field `match` is a Lean keyword and is called `matched` here). -/
structure RecoveredFile where
  filename : String
  language : String
  original_size : Nat
  recovered_size : Nat
  matched : Bool
  content : String
deriving DecidableEq

/-- The `DecodeResult` interface. -/
structure DecodeResult where
  files : List RecoveredFile
  total_files : Nat
deriving DecidableEq

/-- `LosslessMode` (without the `null` alternative, which is modelled by
`Option`). -/
inductive LosslessMode
  | encoding
  | decoding
deriving DecidableEq

/-- The `LosslessState` interface. -/
structure LosslessState where
  running : Option LosslessMode
  error : Option String
  decodeResult : Option DecodeResult
deriving DecidableEq

def initLossless : LosslessState := ⟨none, none, none⟩

/-- `bundleFilename` from `useLossless.ts`, parameterized by the current
time. -/
def bundleFilename (t : Timestamp) : String :=
  "tokentrim-lossless-" ++ tsString t ++ ".json"

/-- Synchronous prefix of `exportLossless`: filter the entries, return
without touching anything when no entry is valid, otherwise enter the
`encoding` state and dispatch the upload (the `Bool` records whether a
request was issued). -/
def exportLosslessStart (fileEntries : List FileEntry) (s : LosslessState) :
    LosslessState × Bool :=
  let validEntries := fileEntries.filter validEntry
  if validEntries.isEmpty then (s, false)
  else ({ running := some .encoding, error := none, decodeResult := none }, true)

/-- Events of `useLossless`: the entry points `exportLossless`,
`decodeLossless`, `decodeWithExtension`, `clearDecodeResult`, plus the
completion callbacks of the requests they dispatch. -/
inductive LEvent
  | exportStart (fileEntries : List FileEntry)
  | exportOk
  | exportErr (msg : String)
  | decodeStart
  | decodeOk (r : DecodeResult)
  | decodeErr (msg : String)
  | decodeExtStart
  | decodeExtOk (r : DecodeResult)
  | decodeExtErr (msg : String)
  | clearResult

/-- One transition of `useLossless`.  Every `setState` in the source writes a
complete three-field object, so each event is a full-state write (completion
events are modelled as fireable at any time; this over-approximates the
reachable states). -/
def stepL (s : LosslessState) (e : LEvent) : LosslessState :=
  match e with
  | .exportStart fileEntries => (exportLosslessStart fileEntries s).1
  | .exportOk => ⟨none, none, none⟩
  | .exportErr m => ⟨none, some m, none⟩
  | .decodeStart => ⟨some .decoding, none, none⟩
  | .decodeOk r => ⟨none, none, some r⟩
  | .decodeErr m => ⟨none, some m, none⟩
  | .decodeExtStart => ⟨some .decoding, none, none⟩
  | .decodeExtOk r => ⟨none, none, some r⟩
  | .decodeExtErr m => ⟨none, some m, none⟩
  | .clearResult => ⟨none, none, none⟩

def runL (s : LosslessState) : List LEvent → LosslessState
  | [] => s
  | e :: es => runL (stepL s e) es

def ReachableL (s : LosslessState) : Prop := ∃ tr, runL initLossless tr = s

end Lossless

namespace BestLevel

/-- Modelled from the spec: the token counts of a `CompressionResult` and its
`bestLevel` / `bestTokens` / `overallReductionPct` fields are computed by the
backend `/compress` service, which is not under `src/` (the client only
declares the `CompressionResult` interface in `components/Sidebar.tsx`).
Per the spec, the named alternative representations carry these token
counts, with candidates declared in the fixed priority order `skeleton`,
`architecture`, `minified`, `compressed`. -/
structure TokenCounts where
  originalTokens : Nat
  minifiedTokens : Nat
  skeletonTokens : Nat
  architectureTokens : Nat
  compressedTokens : Nat
deriving DecidableEq

/-- Modelled from the spec: the candidate representations in first-declared
priority order. -/
def candidates (r : TokenCounts) : List (String × Nat) :=
  [("skeleton", r.skeletonTokens),
   ("architecture", r.architectureTokens),
   ("minified", r.minifiedTokens),
   ("compressed", r.compressedTokens)]

/-- Modelled from the spec: scan the candidates keeping the current best and
replacing it only on a strictly smaller token count, so the first-declared
candidate wins ties. -/
def pickBest : (String × Nat) → List (String × Nat) → String × Nat
  | best, [] => best
  | best, c :: cs => pickBest (if c.2 < best.2 then c else best) cs

def bestOf (r : TokenCounts) : String × Nat :=
  match candidates r with
  | [] => ("", 0)
  | c :: cs => pickBest c cs

def bestLevel (r : TokenCounts) : String := (bestOf r).1

def bestTokens (r : TokenCounts) : Nat := (bestOf r).2

/-- Modelled from the spec: `overallReductionPct = (1 - bestTokens/originalTokens) * 100`. -/
def overallReductionPct (r : TokenCounts) : ℚ :=
  (1 - (bestTokens r : ℚ) / (r.originalTokens : ℚ)) * 100

end BestLevel

namespace Compressor

open BestLevel

/-- The `FileCompressionEntry` interface of the `useCompressor` hook in
`components/Sidebar.tsx` (the opaque `CompressionResult` payload is modelled
by its token counts). -/
structure FileCompressionEntry where
  id : Nat
  fileName : String
  originalContent : String
  compressing : Bool
  result : Option TokenCounts
  error : Option String
deriving DecidableEq

/-- State of `useCompressor`.  `compressFiles` has no reentrancy guard, so
invocations of it can overlap; the model tags every dispatched request with
the run (invocation) that dispatched it.  `pending` holds the dispatched,
unsettled requests as `(run, id, aborted)` triples; `controllers` is the
`controllers.current` map, keyed by file id and holding the run whose
controller currently occupies that slot (`controllers.current.set(id, c)`
overwrites an earlier run's controller under the same id); `waiting` holds
the runs whose `await Promise.allSettled(promises)` continuation has not yet
resumed; `nextRun` numbers the invocations. -/
structure CompressorState where
  compResults : List FileCompressionEntry
  compressing : Bool
  pending : List (Nat × Nat × Bool)
  controllers : List (Nat × Nat)
  waiting : List Nat
  nextRun : Nat
deriving DecidableEq

def initCompressor : CompressorState := ⟨[], false, [], [], [], 0⟩

/-- `controllers.current.set(id, controller)`: replace the map entry for
`id` if present, else add it. -/
def setController (m : List (Nat × Nat)) (id run : Nat) : List (Nat × Nat) :=
  if m.any (fun c => c.1 == id) then
    m.map fun c => if c.1 == id then (id, run) else c
  else m ++ [(id, run)]

/-- Events of `useCompressor`: `compressFiles` (given the batch's `(id, file
name)` pairs), the per-file `file.text()` read, the per-file request
completions (tagged with the run that dispatched them), each run's
`Promise.allSettled` continuation, and `clearResults`. -/
inductive CEvent
  | startRun (files : List (Nat × String))
  | textRead (id : Nat) (text : String)
  | settleOk (run id : Nat) (r : TokenCounts)
  | settleErr (run id : Nat) (msg : String)
  | allDone (run : Nat)
  | clearResults

/-- One transition of `useCompressor`.  `startRun` replaces the batch of
entries wholesale and raises the flag, but does not abort or forget the
still-in-flight requests of earlier runs — their completions later patch
whatever batch is current, and their continuations still resume.
`allDone run` is that run's `await Promise.allSettled` continuation: it can
resume only once every request dispatched by that run has settled (success,
failure, or cancellation), resumes once, and unconditionally executes
`setCompressing(false)` — even while another run's requests are unsettled.
A settlement's `finally` deletes the map entry under its file id, whichever
run's controller occupies it.  `clearResults` aborts exactly the controllers
currently in the map, clears the map, and resets both state values. -/
def stepC (s : CompressorState) (e : CEvent) : CompressorState :=
  match e with
  | .startRun files =>
      if files.isEmpty then s
      else
        { compResults := files.map fun f =>
            { id := f.1, fileName := f.2, originalContent := ""
              compressing := true, result := none, error := none }
          compressing := true
          pending := s.pending ++ files.map fun f => (s.nextRun, f.1, false)
          controllers := files.foldl (fun m f => setController m f.1 s.nextRun) s.controllers
          waiting := s.waiting ++ [s.nextRun]
          nextRun := s.nextRun + 1 }
  | .textRead id text =>
      { s with compResults := s.compResults.map fun en =>
          if en.id == id then { en with originalContent := text } else en }
  | .settleOk run id r =>
      match s.pending.find? (fun p => p.1 == run && p.2.1 == id) with
      | none => s
      | some p =>
          let s' := { s with
            pending := s.pending.filter fun q => !(q.1 == run && q.2.1 == id)
            controllers := s.controllers.filter fun c => c.1 != id }
          if p.2.2 then s'
          else { s' with compResults := s'.compResults.map fun en =>
                  if en.id == id then
                    { en with compressing := false, result := some r, error := none }
                  else en }
  | .settleErr run id msg =>
      match s.pending.find? (fun p => p.1 == run && p.2.1 == id) with
      | none => s
      | some p =>
          let s' := { s with
            pending := s.pending.filter fun q => !(q.1 == run && q.2.1 == id)
            controllers := s.controllers.filter fun c => c.1 != id }
          if p.2.2 then s'
          else { s' with compResults := s'.compResults.map fun en =>
                  if en.id == id then
                    { en with compressing := false, error := some msg }
                  else en }
  | .allDone run =>
      if s.waiting.contains run && s.pending.all (fun p => p.1 != run) then
        { s with compressing := false, waiting := s.waiting.filter fun g => g != run }
      else s
  | .clearResults =>
      { compResults := []
        compressing := false
        pending := s.pending.map fun p =>
          if s.controllers.contains (p.2.1, p.1) then (p.1, p.2.1, true) else p
        controllers := []
        waiting := s.waiting
        nextRun := s.nextRun }

def runC (s : CompressorState) : List CEvent → CompressorState
  | [] => s
  | e :: es => runC (stepC s e) es

def ReachableC (s : CompressorState) : Prop := ∃ tr, runC initCompressor tr = s

/-- Events belonging to run `g` alone: its settlements, text reads, and its
own continuation — no further `compressFiles` call and no `clearResults`. -/
def isRunEvent (g : Nat) : CEvent → Bool
  | .textRead _ _ => true
  | .settleOk run _ _ => run == g
  | .settleErr run _ _ => run == g
  | .allDone run => run == g
  | .startRun _ => false
  | .clearResults => false

end Compressor

namespace MultiFileAnalyzer

/-- Well-formedness of an analyzer state: ids are generator-fresh, each
in-flight request is keyed uniquely, a non-aborted in-flight request belongs
to an entry that is still in its analyzing state, and the resolved-file
projection holds exactly the ids whose entry is in the settled-successfully
state. -/
structure Inv (s : AnalyzerState) : Prop where
  entry_lt : ∀ e ∈ s.entries, e.id < s.nextId
  pending_lt : ∀ p ∈ s.pending, p.1 < s.nextId
  pending_nodup : (pendingIds s).Nodup
  live : ∀ p ∈ s.pending, p.2 = false →
    (∃ e ∈ s.entries, e.id = p.1) ∧
    (∀ e ∈ s.entries, e.id = p.1 → e.analysis.analyzing = true)
  proj : ∀ i, (i ∈ resolvedIds s) ↔ ∃ e ∈ s.entries, e.id = i ∧ isSuccess e.analysis = true

/-- After `removeFile id`, every in-flight request for `id` is aborted and
`id` (being already allocated) can never be re-issued. -/
def removedInv (id : Nat) (s : AnalyzerState) : Prop :=
  id < s.nextId ∧ ∀ p ∈ s.pending, p.1 = id → p.2 = true

/-- An allocated id that has no in-flight request and never will have one. -/
def neverPending (id : Nat) (s : AnalyzerState) : Prop :=
  id < s.nextId ∧ id ∉ pendingIds s

end MultiFileAnalyzer

namespace Compressor

/-- Invariant of a single, non-overlapped run `g`: every unsettled
dispatched request belongs to `g`, and any unsettled request forces the
aggregate `compressing` flag. -/
def runInv (g : Nat) (s : CompressorState) : Prop :=
  (∀ p ∈ s.pending, p.1 = g) ∧ (s.pending ≠ [] → s.compressing = true)

end Compressor

namespace Lossless

/-- A decode result is only ever present in an otherwise idle, error-free
state. -/
def idleInv (s : LosslessState) : Prop :=
  s.decodeResult ≠ none → s.running = none ∧ s.error = none

end Lossless

section Theorems

open FileAnalyzerHook MultiFileAnalyzer ChatArea Stamp

theorem intercalate_go_append (s : String) (as : List String) :
    ∀ acc₁ acc₂ : String,
      String.intercalate.go (acc₁ ++ acc₂) s as = acc₁ ++ String.intercalate.go acc₂ s as := by
  induction as with
  | nil => intro acc₁ acc₂; rfl
  | cons a as ih =>
      intro acc₁ acc₂
      show String.intercalate.go (acc₁ ++ acc₂ ++ s ++ a) s as = _
      rw [String.append_assoc, String.append_assoc, ih, ← String.append_assoc]
      simp only [String.intercalate.go]

theorem intercalate_cons (s x : String) (l : List String) (h : l ≠ []) :
    String.intercalate s (x :: l) = x ++ s ++ String.intercalate s l := by
  cases l with
  | nil => exact absurd rfl h
  | cons a as =>
      show String.intercalate.go x s (a :: as) = x ++ s ++ String.intercalate.go a s as
      show String.intercalate.go (x ++ s ++ a) s as = _
      rw [intercalate_go_append s as (x ++ s) a]

/-- C7: `messagesToTranscript` renders, in order, each message as the
two-line block `[Role]` + newline + content, with role `"user"` mapped to
`User` and any other role to `Assistant`, and joins the blocks with exactly
one blank line (`"\n\n"`). -/
theorem C7_transcript_serialization :
    Pipeline.messagesToTranscript [] = "" ∧
    (∀ m : Message,
      Pipeline.messagesToTranscript [m] =
        "[" ++ (if m.role == "user" then "User" else "Assistant") ++ "]\n" ++ m.content) ∧
    (∀ (m : Message) (ms : List Message), ms ≠ [] →
      Pipeline.messagesToTranscript (m :: ms) =
        Pipeline.messagesToTranscript [m] ++ "\n\n" ++ Pipeline.messagesToTranscript ms) := by
  refine ⟨rfl, fun m => rfl, fun m ms h => ?_⟩
  unfold Pipeline.messagesToTranscript
  rw [List.map_cons, intercalate_cons _ _ _ (by simpa using h)]
  rfl

theorem C7_transcript_serialization_witness :
    ([⟨"2", "assistant", "hi"⟩] : List Message) ≠ [] ∧
    Pipeline.messagesToTranscript [⟨"1", "user", "hello"⟩, ⟨"2", "assistant", "hi"⟩] =
      Pipeline.messagesToTranscript [⟨"1", "user", "hello"⟩] ++ "\n\n" ++
      Pipeline.messagesToTranscript [⟨"2", "assistant", "hi"⟩] :=
  ⟨by decide,
   C7_transcript_serialization.2.2 ⟨"1", "user", "hello"⟩ [⟨"2", "assistant", "hi"⟩] (by decide)⟩


/-- C8: both `bundleFilename` helpers produce
`<prefix>-<mode>-<timestamp>.<ext>` where the timestamp is the ISO-8601
rendering with the millisecond part dropped and every `:` and `.` replaced
by `-`, so the timestamp part contains no `:` or `.` characters. -/
theorem C8_artifact_filename :
    (∀ (mode : Pipeline.PipelineMode) (t : Timestamp),
        Pipeline.bundleFilename mode t =
          "tokentrim-" ++ Pipeline.modeName mode ++ "-" ++ tsString t ++ ".txt") ∧
    (∀ t : Timestamp,
        Lossless.bundleFilename t = "tokentrim-lossless-" ++ tsString t ++ ".json") ∧
    (∀ (t : Timestamp) (c : Char), c ∈ (tsString t).data → c ≠ ':' ∧ c ≠ '.') ∧
    (∀ t : Timestamp,
        toISOString t = isoHead t ++ "." ++ pad3 t.ms ++ "Z" ∧
        stripMillis t = isoHead t ++ "Z") := by
  refine ⟨fun mode t => ?_, fun t => ?_, fun t c hc => ?_, fun t => ⟨rfl, rfl⟩⟩
  · show "tokentrim-" ++ Pipeline.modeName mode ++ "-" ++ tsString t ++ "." ++
        (if mode == .withExtension then "txt" else "txt") = _
    have hext : (if mode == Pipeline.PipelineMode.withExtension then "txt" else "txt") = "txt" := by
      split <;> rfl
    rw [hext, String.append_assoc]
    rfl
  · rfl
  · have : c ∈ (stripMillis t).data.map fun c => if c == ':' || c == '.' then '-' else c := hc
    obtain ⟨c', _, rfl⟩ := List.mem_map.mp this
    by_cases h : (c' == ':' || c' == '.') = true
    · rw [if_pos h]; decide
    · rw [if_neg h]
      simp only [Bool.or_eq_true, beq_iff_eq, not_or] at h
      exact ⟨h.1, h.2⟩

theorem C8_artifact_filename_witness :
    (':' ∈ (toISOString ⟨2026, 2, 25, 14, 32, 5, 123⟩).data) ∧
    ('-' ∈ (tsString ⟨2026, 2, 25, 14, 32, 5, 123⟩).data ∧
      ('-' : Char) ≠ ':' ∧ ('-' : Char) ≠ '.') :=
  ⟨by decide,
   by decide,
   C8_artifact_filename.2.2.1 ⟨2026, 2, 25, 14, 32, 5, 123⟩ '-' (by decide)⟩

/-- C1 counterexample: with mode `"raw"` already running, a `_run` call for
mode `"compressed"` is not rejected — the state is replaced (mode `"raw"` is
no longer recorded as running) and the request is dispatched. -/
theorem C1_counterexample :
    (Pipeline.runStart .compressed [] [] ⟨some .raw, none⟩).1.running ≠
      some Pipeline.PipelineMode.raw ∧
    (Pipeline.runStart .compressed [] [] ⟨some .raw, none⟩).2 ≠ none := by
  constructor <;> simp [Pipeline.runStart]

/-- C1 (amended): `_run` performs no mutual-exclusion check.  A call made
while `state.running` is some non-null mode `m` proceeds exactly as from an
idle state: the state is unconditionally replaced with
`{running: mode, error: null}` and the request to the mode's endpoint is
issued, silently replacing the running mode `m`. -/
theorem C1_run_silently_replaces :
    ∀ (s : Pipeline.PipelineState) (m mode : Pipeline.PipelineMode)
      (messages : List Message) (fileEntries : List FileEntry),
      s.running = some m →
      (Pipeline.runStart mode messages fileEntries s).1 = ⟨some mode, none⟩ ∧
      (Pipeline.runStart mode messages fileEntries s).2 =
        some ⟨Pipeline.ENDPOINT mode, Pipeline.messagesToTranscript messages,
              (fileEntries.filter Pipeline.validEntry).map fun e => e.file⟩ ∧
      Pipeline.runStart mode messages fileEntries s =
        Pipeline.runStart mode messages fileEntries ⟨none, none⟩ :=
  fun _ _ _ _ _ _ => ⟨rfl, rfl, rfl⟩

theorem C1_run_silently_replaces_witness :
    (Pipeline.PipelineState.mk (some .raw) none).running = some Pipeline.PipelineMode.raw ∧
    (Pipeline.runStart .compressed [] [] ⟨some .raw, none⟩).1 = ⟨some .compressed, none⟩ :=
  ⟨rfl, (C1_run_silently_replaces ⟨some .raw, none⟩ .raw .compressed [] [] rfl).1⟩

/-- C9: when no attached file entry passes the validity filter,
`exportLossless` returns before its `setState`: no request is issued and the
state (running, error, decodeResult) is exactly what it was. -/
theorem C9_exportLossless_empty_frame :
    ∀ (fileEntries : List FileEntry) (s : Lossless.LosslessState),
      (∀ e ∈ fileEntries, Pipeline.validEntry e = false) →
      Lossless.exportLosslessStart fileEntries s = (s, false) := by
  intro fe s h
  unfold Lossless.exportLosslessStart
  have hnil : fe.filter Pipeline.validEntry = [] :=
    List.filter_eq_nil_iff.mpr (by intro a ha; simp [h a ha])
  simp [hnil]

theorem C9_exportLossless_empty_frame_witness :
    (∀ e ∈ [(⟨7, ⟨"a.ts", 5⟩, ⟨true, "Detecting...", "Calculating...", "5 B", none, none⟩⟩ : FileEntry)],
        Pipeline.validEntry e = false) ∧
    Lossless.exportLosslessStart
        [⟨7, ⟨"a.ts", 5⟩, ⟨true, "Detecting...", "Calculating...", "5 B", none, none⟩⟩]
        ⟨some .decoding, some "boom", none⟩ =
      (⟨some .decoding, some "boom", none⟩, false) :=
  ⟨by decide,
   C9_exportLossless_empty_frame _ ⟨some .decoding, some "boom", none⟩ (by decide)⟩


open BestLevel in
/-- C6: `bestLevel`/`bestTokens` select the candidate with the minimum token
count, ties broken by the declared priority order skeleton, architecture,
minified, compressed (first-declared wins), and
`overallReductionPct = (1 - bestTokens/originalTokens) * 100`; the claim's
two concrete examples evaluate as stated. -/
theorem C6_best_level_selection :
    (∀ r : TokenCounts,
        bestTokens r =
          min r.skeletonTokens
            (min r.architectureTokens (min r.minifiedTokens r.compressedTokens))) ∧
    (∀ r : TokenCounts,
        bestLevel r =
          if r.skeletonTokens ≤ r.architectureTokens ∧ r.skeletonTokens ≤ r.minifiedTokens ∧
              r.skeletonTokens ≤ r.compressedTokens then "skeleton"
          else if r.architectureTokens ≤ r.minifiedTokens ∧
              r.architectureTokens ≤ r.compressedTokens then "architecture"
          else if r.minifiedTokens ≤ r.compressedTokens then "minified"
          else "compressed") ∧
    (∀ r : TokenCounts, (bestLevel r, bestTokens r) ∈ candidates r) ∧
    (∀ r : TokenCounts,
        overallReductionPct r = (1 - (bestTokens r : ℚ) / (r.originalTokens : ℚ)) * 100) ∧
    (bestLevel ⟨1000, 700, 300, 200, 150⟩ = "compressed" ∧
      bestTokens ⟨1000, 700, 300, 200, 150⟩ = 150 ∧
      overallReductionPct ⟨1000, 700, 300, 200, 150⟩ = 85) ∧
    bestLevel ⟨1000, 700, 200, 200, 600⟩ = "skeleton" := by
  refine ⟨fun r => ?_, fun r => ?_, fun r => ?_, fun r => rfl, ⟨by decide, by decide, ?_⟩, by decide⟩
  · simp only [bestTokens, bestOf, candidates, pickBest]
    split_ifs <;> omega
  · simp only [bestLevel, bestOf, candidates, pickBest]
    split_ifs <;> first | rfl | omega
  · simp only [bestLevel, bestTokens, bestOf, candidates, pickBest]
    split_ifs <;> simp [candidates]
  · have h : bestTokens ⟨1000, 700, 300, 200, 150⟩ = 150 := by decide
    rw [overallReductionPct, h]
    norm_num

open Lossless in
theorem losslessIdle_step (s : LosslessState) (e : LEvent) (h : idleInv s) :
    idleInv (stepL s e) := by
  cases e with
  | exportStart fe =>
      show idleInv (exportLosslessStart fe s).1
      unfold exportLosslessStart
      by_cases he : (fe.filter Pipeline.validEntry).isEmpty
      · simpa [he] using h
      · intro hd
        simp [he] at hd
  | exportOk => intro hd; exact absurd rfl hd
  | exportErr m => intro hd; exact absurd rfl hd
  | decodeStart => intro hd; exact absurd rfl hd
  | decodeOk r => exact fun _ => ⟨rfl, rfl⟩
  | decodeErr m => intro hd; exact absurd rfl hd
  | decodeExtStart => intro hd; exact absurd rfl hd
  | decodeExtOk r => exact fun _ => ⟨rfl, rfl⟩
  | decodeExtErr m => intro hd; exact absurd rfl hd
  | clearResult => intro hd; exact absurd rfl hd

open Lossless in
theorem losslessIdle_run (tr : List LEvent) :
    ∀ s : LosslessState, idleInv s → idleInv (runL s tr) := by
  induction tr with
  | nil => exact fun s h => h
  | cons e es ih => exact fun s h => ih _ (losslessIdle_step s e h)

open Lossless in
/-- C10: in every reachable state of the `useLossless` hook, `decodeResult`
is non-null only when `running` is null and `error` is null. -/
theorem C10_decodeResult_only_when_idle :
    ∀ s : LosslessState, ReachableL s →
      s.decodeResult ≠ none → s.running = none ∧ s.error = none := by
  intro s hs
  obtain ⟨tr, rfl⟩ := hs
  exact losslessIdle_run tr initLossless (fun hd => absurd rfl hd)

open Lossless in
theorem C10_decodeResult_only_when_idle_witness :
    ReachableL (runL initLossless [.decodeStart, .decodeOk ⟨[], 0⟩]) ∧
    (runL initLossless [.decodeStart, .decodeOk ⟨[], 0⟩]).running = none ∧
    (runL initLossless [.decodeStart, .decodeOk ⟨[], 0⟩]).error = none :=
  ⟨⟨[.decodeStart, .decodeOk ⟨[], 0⟩], rfl⟩,
   C10_decodeResult_only_when_idle _ ⟨[.decodeStart, .decodeOk ⟨[], 0⟩], rfl⟩ (by decide)⟩


open Compressor in
theorem runInv_step (g : Nat) (s : CompressorState) (e : CEvent)
    (he : isRunEvent g e = true) (h : runInv g s) : runInv g (stepC s e) := by
  obtain ⟨hall, hflag⟩ := h
  cases e with
  | startRun files => simp [isRunEvent] at he
  | textRead id text => exact ⟨hall, hflag⟩
  | settleOk run id r =>
      simp only [stepC]
      cases hf : s.pending.find? (fun p => p.1 == run && p.2.1 == id) with
      | none => exact ⟨hall, hflag⟩
      | some p =>
          change Compressor.runInv g (if p.2.2 = true then _ else _)
          have key : ∀ t : CompressorState,
              t.pending = s.pending.filter (fun q => !(q.1 == run && q.2.1 == id)) →
              t.compressing = s.compressing → runInv g t := by
            intro t hp hc
            constructor
            · intro q hq
              rw [hp] at hq
              exact hall q (List.mem_of_mem_filter hq)
            · intro hne
              rw [hc]
              refine hflag fun hnil => ?_
              rw [hp, hnil, List.filter_nil] at hne
              exact hne rfl
          by_cases hb : p.2.2 = true
          · rw [if_pos hb]; exact key _ rfl rfl
          · rw [if_neg hb]; exact key _ rfl rfl
  | settleErr run id msg =>
      simp only [stepC]
      cases hf : s.pending.find? (fun p => p.1 == run && p.2.1 == id) with
      | none => exact ⟨hall, hflag⟩
      | some p =>
          change Compressor.runInv g (if p.2.2 = true then _ else _)
          have key : ∀ t : CompressorState,
              t.pending = s.pending.filter (fun q => !(q.1 == run && q.2.1 == id)) →
              t.compressing = s.compressing → runInv g t := by
            intro t hp hc
            constructor
            · intro q hq
              rw [hp] at hq
              exact hall q (List.mem_of_mem_filter hq)
            · intro hne
              rw [hc]
              refine hflag fun hnil => ?_
              rw [hp, hnil, List.filter_nil] at hne
              exact hne rfl
          by_cases hb : p.2.2 = true
          · rw [if_pos hb]; exact key _ rfl rfl
          · rw [if_neg hb]; exact key _ rfl rfl
  | allDone run =>
      have hrun : run = g := by simpa [isRunEvent] using he
      show Compressor.runInv g
        (if (s.waiting.contains run && s.pending.all fun p => p.1 != run) = true then _ else s)
      by_cases hc : (s.waiting.contains run && s.pending.all fun p => p.1 != run) = true
      · rw [if_pos hc]
        refine ⟨hall, ?_⟩
        intro hne
        obtain ⟨q, hq⟩ := List.exists_mem_of_ne_nil _ hne
        have h1 := hall q hq
        have h2 : q.1 ≠ run := by
          have h3 := (Bool.and_eq_true_iff.mp hc).2
          exact bne_iff_ne.mp (List.all_eq_true.mp h3 q hq)
        exact absurd (hrun ▸ h1) h2
      · rw [if_neg hc]
        exact ⟨hall, hflag⟩
  | clearResults => simp [isRunEvent] at he

open Compressor in
theorem runInv_run (g : Nat) (tr : List CEvent) :
    ∀ s : CompressorState, (∀ e ∈ tr, isRunEvent g e = true) →
      runInv g s → runInv g (runC s tr) := by
  induction tr with
  | nil => exact fun s _ h => h
  | cons e es ih =>
      intro s htr h
      exact ih _ (fun e' he' => htr e' (List.mem_cons_of_mem _ he'))
        (runInv_step g s e (htr e (List.mem_cons_self _ _)) h)

open Compressor in
/-- C4 counterexample: with run 0 (batch `[(0, "a")]`) still awaited, a
second `compressFiles` call dispatches batch `[(1, "b")]`; when run 0's one
request settles, run 0's `Promise.allSettled` continuation resumes and sets
`compressing` to `false` while batch 1's dispatched request — never aborted —
is still unsettled, so the flag is not "true until every dispatched per-file
request has settled" for the batch `[(1, "b")]`. -/
theorem C4_counterexample :
    (runC initCompressor [.startRun [(0, "a")], .startRun [(1, "b")],
        .settleOk 0 0 ⟨1, 1, 1, 1, 1⟩, .allDone 0]).compressing = false ∧
    (1, 1, false) ∈ (runC initCompressor [.startRun [(0, "a")], .startRun [(1, "b")],
        .settleOk 0 0 ⟨1, 1, 1, 1, 1⟩, .allDone 0]).pending := by
  decide

open Compressor in
/-- C4 (amended): `compressFiles` raises the aggregate `compressing` flag at
the start of every non-empty batch and dispatches one request per file; a
run's `Promise.allSettled` continuation cannot resume while any request of
that run is unsettled, and once they have all settled it unconditionally
sets `compressing` to `false`.  Consequently the flag stays true until every
dispatched request has settled only for a non-overlapped run: one started
with no requests of earlier runs outstanding and interleaved only with its
own settlements, reads, and continuation.  A batch whose run overlaps an
earlier one is not protected: the earlier run's continuation lowers the flag
while the later batch is still unsettled. -/
theorem C4_per_run_flag :
    (∀ (files : List (Nat × String)) (s : CompressorState), files ≠ [] →
        (stepC s (.startRun files)).compressing = true ∧
        (stepC s (.startRun files)).pending =
          s.pending ++ files.map (fun f => (s.nextRun, f.1, false))) ∧
    (∀ (s : CompressorState) (g : Nat) (p : Nat × Nat × Bool),
        p ∈ s.pending → p.1 = g → stepC s (.allDone g) = s) ∧
    (∀ (s : CompressorState) (g : Nat),
        (s.waiting.contains g && s.pending.all fun p => p.1 != g) = true →
        (stepC s (.allDone g)).compressing = false) ∧
    (∀ (s0 : CompressorState) (files : List (Nat × String)) (tr : List CEvent),
        s0.pending = [] → files ≠ [] →
        (∀ e ∈ tr, isRunEvent s0.nextRun e = true) →
        (runC (stepC s0 (.startRun files)) tr).pending ≠ [] →
        (runC (stepC s0 (.startRun files)) tr).compressing = true) := by
  refine ⟨fun files s hfne => ?_, fun s g p hp hpg => ?_, fun s g hc => ?_,
    fun s0 files tr hp0 hfne htr => ?_⟩
  · have he : files.isEmpty = false := by
      cases files with
      | nil => exact absurd rfl hfne
      | cons a l => rfl
    constructor
    · show (if files.isEmpty then s else _).compressing = true
      rw [if_neg (by simp [he])]
    · show (if files.isEmpty then s else _).pending = _
      rw [if_neg (by simp [he])]
  · have hcond : ¬(s.waiting.contains g && s.pending.all fun q => q.1 != g) = true := by
      intro hc
      have h3 := (Bool.and_eq_true_iff.mp hc).2
      exact bne_iff_ne.mp (List.all_eq_true.mp h3 p hp) hpg
    show (if (s.waiting.contains g && s.pending.all fun q => q.1 != g) = true
        then _ else s) = s
    rw [if_neg hcond]
  · show (if (s.waiting.contains g && s.pending.all fun q => q.1 != g) = true
        then _ else s).compressing = false
    rw [if_pos hc]
  · have he : files.isEmpty = false := by
      cases files with
      | nil => exact absurd rfl hfne
      | cons a l => rfl
    have hpend : (stepC s0 (.startRun files)).pending =
        s0.pending ++ files.map (fun f => (s0.nextRun, f.1, false)) := by
      show (if files.isEmpty then s0 else _).pending = _
      rw [if_neg (by simp [he])]
    have hcomp : (stepC s0 (.startRun files)).compressing = true := by
      show (if files.isEmpty then s0 else _).compressing = true
      rw [if_neg (by simp [he])]
    have base : runInv s0.nextRun (stepC s0 (.startRun files)) := by
      constructor
      · intro p hp
        rw [hpend, hp0, List.nil_append] at hp
        obtain ⟨f, hf, rfl⟩ := List.mem_map.mp hp
        rfl
      · intro _
        exact hcomp
    exact (runInv_run s0.nextRun tr _ htr base).2

open Compressor in
theorem C4_per_run_flag_witness :
    ((runC (stepC initCompressor (.startRun [(0, "a"), (1, "b"), (2, "c")]))
        [.settleOk 0 0 ⟨10, 9, 8, 7, 6⟩, .settleErr 0 1 "boom"]).compressing = true) ∧
    ((stepC (runC initCompressor
        [.startRun [(0, "a"), (1, "b"), (2, "c")],
         .settleOk 0 0 ⟨10, 9, 8, 7, 6⟩, .settleErr 0 1 "boom",
         .settleOk 0 2 ⟨10, 9, 8, 7, 6⟩]) (.allDone 0)).compressing = false) :=
  ⟨C4_per_run_flag.2.2.2 initCompressor [(0, "a"), (1, "b"), (2, "c")]
     [.settleOk 0 0 ⟨10, 9, 8, 7, 6⟩, .settleErr 0 1 "boom"]
     rfl (by decide) (by decide) (by decide),
   C4_per_run_flag.2.2.1 _ 0 (by decide)⟩


theorem removedInv_step (id : Nat) (s : AnalyzerState) (e : AEvent) (h : removedInv id s) :
    removedInv id (step s e) := by
  obtain ⟨hlt, hab⟩ := h
  cases e with
  | addFile f =>
      refine ⟨Nat.lt_succ_of_lt hlt, ?_⟩
      intro p hp hpid
      show p.2 = true
      by_cases hsz : f.size > MAX_BYTES
      · rw [show (step s (.addFile f)).pending =
              if f.size > MAX_BYTES then s.pending else s.pending ++ [(s.nextId, false)] from rfl,
            if_pos hsz] at hp
        exact hab p hp hpid
      · rw [show (step s (.addFile f)).pending =
              if f.size > MAX_BYTES then s.pending else s.pending ++ [(s.nextId, false)] from rfl,
            if_neg hsz] at hp
        rcases List.mem_append.mp hp with h1 | h2
        · exact hab p h1 hpid
        · have : p = (s.nextId, false) := by simpa using h2
          subst this
          exact absurd hpid (by simp; omega)
  | completeOk i data =>
      simp only [step]
      cases hf : s.pending.find? (fun p => p.1 == i) with
      | none => exact ⟨hlt, hab⟩
      | some p =>
          have key : ∀ t : AnalyzerState,
              t.pending = s.pending.filter (fun q => q.1 != i) →
              t.nextId = s.nextId → removedInv id t := by
            intro t hp hn
            refine ⟨hn ▸ hlt, ?_⟩
            intro q hq hqid
            rw [hp] at hq
            exact hab q (List.mem_of_mem_filter hq) hqid
          by_cases hb : p.2 <;> simp only [hb, if_true, if_false]
          · exact key _ rfl rfl
          · exact key _ rfl rfl
  | completeErr i msg =>
      simp only [step]
      cases hf : s.pending.find? (fun p => p.1 == i) with
      | none => exact ⟨hlt, hab⟩
      | some p =>
          have key : ∀ t : AnalyzerState,
              t.pending = s.pending.filter (fun q => q.1 != i) →
              t.nextId = s.nextId → removedInv id t := by
            intro t hp hn
            refine ⟨hn ▸ hlt, ?_⟩
            intro q hq hqid
            rw [hp] at hq
            exact hab q (List.mem_of_mem_filter hq) hqid
          by_cases hb : p.2 <;> simp only [hb, if_true, if_false]
          · exact key _ rfl rfl
          · exact key _ rfl rfl
  | removeFile i =>
      refine ⟨hlt, ?_⟩
      intro q hq hqid
      obtain ⟨p, hp, rfl⟩ := List.mem_map.mp hq
      by_cases hpi : (p.1 == i) = true
      · rw [if_pos hpi]
      · rw [if_neg hpi] at hqid ⊢
        exact hab p hp hqid
  | clearFiles =>
      refine ⟨hlt, ?_⟩
      intro q hq _
      obtain ⟨p, _, rfl⟩ := List.mem_map.mp hq
      rfl

theorem removedInv_run (tr : List AEvent) :
    ∀ s : AnalyzerState, ∀ id : Nat, removedInv id s → removedInv id (run s tr) := by
  induction tr with
  | nil => exact fun s id h => h
  | cons e es ih => exact fun s id h => ih _ id (removedInv_step id s e h)

theorem remove_establishes (id : Nat) (s : AnalyzerState) (hid : id < s.nextId) :
    removedInv id (step s (.removeFile id)) := by
  refine ⟨hid, ?_⟩
  intro q hq hqid
  obtain ⟨p, hp, rfl⟩ := List.mem_map.mp hq
  by_cases hpi : (p.1 == id) = true
  · rw [if_pos hpi]
  · rw [if_neg hpi] at hqid
    exact absurd (beq_iff_eq.mpr hqid) hpi

theorem removed_frozen (id : Nat) (t : AnalyzerState) (h : removedInv id t)
    (data : AnalyzeResponse) (msg : String) :
    (step t (.completeOk id data)).entries = t.entries ∧
    (step t (.completeOk id data)).resolvedFiles = t.resolvedFiles ∧
    (step t (.completeErr id msg)).entries = t.entries ∧
    (step t (.completeErr id msg)).resolvedFiles = t.resolvedFiles := by
  cases hf : t.pending.find? (fun p => p.1 == id) with
  | none => simp [step, hf]
  | some p =>
      have hmem := List.mem_of_find?_eq_some hf
      have hpid : p.1 = id := by simpa using List.find?_some hf
      have hab : p.2 = true := h.2 p hmem hpid
      simp [step, hf, hab]

/-- C2: after `removeFile id`, a later-arriving analysis completion for that
id — success or failure, after any interleaving of further events — leaves
both the entries list and the resolvedFiles projection unchanged. -/
theorem C2_no_write_after_remove :
    ∀ s : AnalyzerState, Reachable s → ∀ id : Nat, id < s.nextId →
    ∀ (tr : List AEvent) (data : AnalyzeResponse) (msg : String),
      (step (run (step s (.removeFile id)) tr) (.completeOk id data)).entries
        = (run (step s (.removeFile id)) tr).entries ∧
      (step (run (step s (.removeFile id)) tr) (.completeOk id data)).resolvedFiles
        = (run (step s (.removeFile id)) tr).resolvedFiles ∧
      (step (run (step s (.removeFile id)) tr) (.completeErr id msg)).entries
        = (run (step s (.removeFile id)) tr).entries ∧
      (step (run (step s (.removeFile id)) tr) (.completeErr id msg)).resolvedFiles
        = (run (step s (.removeFile id)) tr).resolvedFiles := by
  intro s _ id hid tr data msg
  exact removed_frozen id _ (removedInv_run tr _ id (remove_establishes id s hid)) data msg


theorem C2_no_write_after_remove_witness :
    0 < (run initState [.addFile ⟨"a.ts", 100⟩]).nextId ∧
    (step (run (step (run initState [.addFile ⟨"a.ts", 100⟩]) (.removeFile 0)) [])
        (.completeOk 0 ⟨"a.ts", 100, "TypeScript", 42⟩)).entries
      = (run (step (run initState [.addFile ⟨"a.ts", 100⟩]) (.removeFile 0)) []).entries :=
  ⟨by decide,
   (C2_no_write_after_remove _ ⟨[.addFile ⟨"a.ts", 100⟩], rfl⟩ 0 (by decide) []
      ⟨"a.ts", 100, "TypeScript", 42⟩ "x").1⟩

theorem initial_not_success (f : FileModel) :
    isSuccess (buildInitialAnalysis f) = false := by
  unfold isSuccess buildInitialAnalysis
  by_cases hsz : f.size > MAX_BYTES
  · rw [if_pos hsz]; rfl
  · rw [if_neg hsz]; rfl

theorem upsert_mem_ids (id : Nat) (d : AnalyzeResponse) (rs : List AnalyzedFile) (i : Nat) :
    (i ∈ (upsertResolved id d rs).map fun f => f.id) ↔
      (i = id ∨ i ∈ rs.map fun f => f.id) := by
  unfold upsertResolved
  by_cases h : rs.any (fun f => f.id == id) = true
  · rw [if_pos h]
    obtain ⟨f0, hf0, hf0id⟩ := List.any_eq_true.mp h
    have hf0id' : f0.id = id := by simpa using hf0id
    constructor
    · intro hi
      obtain ⟨y, hy, hyi⟩ := List.mem_map.mp hi
      obtain ⟨f, hf, rfl⟩ := List.mem_map.mp hy
      by_cases hfi : (f.id == id) = true
      · rw [if_pos hfi] at hyi
        exact Or.inl hyi.symm
      · rw [if_neg hfi] at hyi
        exact Or.inr (List.mem_map.mpr ⟨f, hf, hyi⟩)
    · intro hi
      rcases hi with rfl | hi
      · refine List.mem_map.mpr ⟨_, List.mem_map.mpr ⟨f0, hf0, rfl⟩, ?_⟩
        rw [if_pos hf0id]
      · obtain ⟨f, hf, rfl⟩ := List.mem_map.mp hi
        refine List.mem_map.mpr ⟨_, List.mem_map.mpr ⟨f, hf, rfl⟩, ?_⟩
        by_cases hfi : (f.id == id) = true
        · rw [if_pos hfi]
          exact (beq_iff_eq.mp hfi).symm
        · rw [if_neg hfi]
  · rw [if_neg h]
    rw [List.map_append, List.mem_append]
    constructor
    · intro hi
      rcases hi with hi | hi
      · exact Or.inr hi
      · exact Or.inl (by simpa using hi)
    · intro hi
      rcases hi with rfl | hi
      · exact Or.inr (by simp)
      · exact Or.inl hi

theorem patchS_exists (id : Nat) (d : AnalyzeResponse) (es : List FileEntry) (i : Nat) :
    (∃ e ∈ patchEntrySuccess id d es, e.id = i ∧ isSuccess e.analysis = true) ↔
      ((i = id ∧ ∃ e ∈ es, e.id = id) ∨
       (i ≠ id ∧ ∃ e ∈ es, e.id = i ∧ isSuccess e.analysis = true)) := by
  unfold patchEntrySuccess
  constructor
  · rintro ⟨e', he', hei, hsu⟩
    obtain ⟨a, ha, rfl⟩ := List.mem_map.mp he'
    by_cases hai : (a.id == id) = true
    · rw [if_pos hai] at hei
      have hei' : a.id = i := hei
      exact Or.inl ⟨by rw [← hei', beq_iff_eq.mp hai], a, ha, beq_iff_eq.mp hai⟩
    · rw [if_neg hai] at hei hsu
      refine Or.inr ⟨?_, a, ha, hei, hsu⟩
      intro hii
      exact hai (beq_iff_eq.mpr (hei ▸ hii))
  · rintro (⟨rfl, a, ha, hai⟩ | ⟨hne, a, ha, hai, hsu⟩)
    · refine ⟨_, List.mem_map.mpr ⟨a, ha, rfl⟩, ?_⟩
      rw [if_pos (beq_iff_eq.mpr hai)]
      exact ⟨hai, rfl⟩
    · refine ⟨_, List.mem_map.mpr ⟨a, ha, rfl⟩, ?_⟩
      rw [if_neg (fun hb => hne (hai ▸ beq_iff_eq.mp hb))]
      exact ⟨hai, hsu⟩

theorem patchF_exists (id : Nat) (msg : String) (es : List FileEntry) (i : Nat) :
    (∃ e ∈ patchEntryFailure id msg es, e.id = i ∧ isSuccess e.analysis = true) ↔
      (i ≠ id ∧ ∃ e ∈ es, e.id = i ∧ isSuccess e.analysis = true) := by
  unfold patchEntryFailure
  constructor
  · rintro ⟨e', he', hei, hsu⟩
    obtain ⟨a, ha, rfl⟩ := List.mem_map.mp he'
    by_cases hai : (a.id == id) = true
    · rw [if_pos hai] at hsu
      exact absurd hsu (by simp [isSuccess])
    · rw [if_neg hai] at hei hsu
      refine ⟨?_, a, ha, hei, hsu⟩
      intro hii
      exact hai (beq_iff_eq.mpr (hei ▸ hii))
  · rintro ⟨hne, a, ha, hai, hsu⟩
    refine ⟨_, List.mem_map.mpr ⟨a, ha, rfl⟩, ?_⟩
    rw [if_neg (fun hb => hne (hai ▸ beq_iff_eq.mp hb))]
    exact ⟨hai, hsu⟩


theorem inv_addFile (s : AnalyzerState) (f : FileModel) (h : Inv s) :
    Inv (step s (.addFile f)) := by
  obtain ⟨helt, hplt, hnd, hlive, hproj⟩ := h
  simp only [resolvedIds] at hproj
  have hpend : (step s (.addFile f)).pending =
      (if f.size > MAX_BYTES then s.pending else s.pending ++ [(s.nextId, false)]) := rfl
  constructor
  · intro e he
    show e.id < s.nextId + 1
    rcases List.mem_append.mp he with h1 | h2
    · exact Nat.lt_succ_of_lt (helt e h1)
    · have he2 : e = ⟨s.nextId, f, buildInitialAnalysis f⟩ := by simpa using h2
      rw [he2]
      exact Nat.lt_succ_self _
  · intro p hp
    show p.1 < s.nextId + 1
    rw [hpend] at hp
    by_cases hsz : f.size > MAX_BYTES
    · rw [if_pos hsz] at hp
      exact Nat.lt_succ_of_lt (hplt p hp)
    · rw [if_neg hsz] at hp
      rcases List.mem_append.mp hp with h1 | h2
      · exact Nat.lt_succ_of_lt (hplt p h1)
      · have : p = (s.nextId, false) := by simpa using h2
        rw [this]
        exact Nat.lt_succ_self _
  · show ((step s (.addFile f)).pending.map fun p => p.1).Nodup
    rw [hpend]
    by_cases hsz : f.size > MAX_BYTES
    · rw [if_pos hsz]; exact hnd
    · rw [if_neg hsz, List.map_append]
      rw [List.nodup_append]
      refine ⟨hnd, by simp, ?_⟩
      intro a ha hb
      have ha2 : a = s.nextId := by simpa using hb
      obtain ⟨p, hp, rfl⟩ := List.mem_map.mp ha
      have := hplt p hp
      omega
  · intro p hp hfalse
    rw [hpend] at hp
    by_cases hsz : f.size > MAX_BYTES
    · rw [if_pos hsz] at hp
      obtain ⟨⟨e, he, heid⟩, hall⟩ := hlive p hp hfalse
      refine ⟨⟨e, List.mem_append.mpr (Or.inl he), heid⟩, ?_⟩
      intro e' he' heid'
      rcases List.mem_append.mp he' with h1 | h2
      · exact hall e' h1 heid'
      · have he2 : e' = ⟨s.nextId, f, buildInitialAnalysis f⟩ := by simpa using h2
        have hlt := hplt p hp
        rw [he2] at heid'
        simp at heid'
        omega
    · rw [if_neg hsz] at hp
      rcases List.mem_append.mp hp with h1 | h2
      · obtain ⟨⟨e, he, heid⟩, hall⟩ := hlive p h1 hfalse
        refine ⟨⟨e, List.mem_append.mpr (Or.inl he), heid⟩, ?_⟩
        intro e' he' heid'
        rcases List.mem_append.mp he' with hh1 | hh2
        · exact hall e' hh1 heid'
        · have he2 : e' = ⟨s.nextId, f, buildInitialAnalysis f⟩ := by simpa using hh2
          have hlt := hplt p h1
          rw [he2] at heid'
          simp at heid'
          omega
      · have hp2 : p = (s.nextId, false) := by simpa using h2
        subst hp2
        refine ⟨⟨⟨s.nextId, f, buildInitialAnalysis f⟩,
          List.mem_append.mpr (Or.inr (by simp)), rfl⟩, ?_⟩
        intro e' he' heid'
        rcases List.mem_append.mp he' with hh1 | hh2
        · have := helt e' hh1
          simp at heid'
          omega
        · have he2 : e' = ⟨s.nextId, f, buildInitialAnalysis f⟩ := by simpa using hh2
          rw [he2]
          show (buildInitialAnalysis f).analyzing = true
          unfold buildInitialAnalysis
          rw [if_neg hsz]
  · intro i
    show (i ∈ s.resolvedFiles.map fun f => f.id) ↔ _
    rw [hproj i]
    constructor
    · rintro ⟨e, he, hei, hsu⟩
      exact ⟨e, List.mem_append.mpr (Or.inl he), hei, hsu⟩
    · rintro ⟨e, he, hei, hsu⟩
      rcases List.mem_append.mp he with h1 | h2
      · exact ⟨e, h1, hei, hsu⟩
      · have he2 : e = ⟨s.nextId, f, buildInitialAnalysis f⟩ := by simpa using h2
        rw [he2] at hsu
        have : isSuccess (buildInitialAnalysis f) = false := initial_not_success f
        simp only [this] at hsu
        cases hsu

theorem inv_removeFile (s : AnalyzerState) (id : Nat) (h : Inv s) :
    Inv (step s (.removeFile id)) := by
  obtain ⟨helt, hplt, hnd, hlive, hproj⟩ := h
  simp only [resolvedIds] at hproj
  constructor
  · intro e he
    exact helt e (List.mem_of_mem_filter he)
  · intro q hq
    obtain ⟨p, hp, rfl⟩ := List.mem_map.mp hq
    show (if p.1 == id then (p.1, true) else p).1 < s.nextId
    by_cases hpi : (p.1 == id) = true
    · rw [if_pos hpi]; exact hplt p hp
    · rw [if_neg hpi]; exact hplt p hp
  · show ((s.pending.map fun p => if p.1 == id then (p.1, true) else p).map fun p => p.1).Nodup
    rw [List.map_map]
    have : ((fun p : Nat × Bool => p.1) ∘ fun p : Nat × Bool => if p.1 == id then (p.1, true) else p)
        = fun p : Nat × Bool => p.1 := by
      funext p
      show (if p.1 == id then (p.1, true) else p).1 = p.1
      by_cases hpi : (p.1 == id) = true
      · rw [if_pos hpi]
      · rw [if_neg hpi]
    rw [this]
    exact hnd
  · intro q hq hfq
    obtain ⟨p, hp, rfl⟩ := List.mem_map.mp hq
    by_cases hpi : (p.1 == id) = true
    · rw [if_pos hpi] at hfq
      cases hfq
    · rw [if_neg hpi] at hfq ⊢
      have hne : p.1 ≠ id := fun hh => hpi (beq_iff_eq.mpr hh)
      obtain ⟨⟨e, he, heid⟩, hall⟩ := hlive p hp hfq
      refine ⟨⟨e, List.mem_filter.mpr ⟨he, ?_⟩, heid⟩, ?_⟩
      · exact bne_iff_ne.mpr (heid ▸ hne)
      · intro e' he' heid'
        exact hall e' (List.mem_of_mem_filter he') heid'
  · intro i
    have lhs : (i ∈ (s.resolvedFiles.filter fun f => f.id != id).map fun f => f.id) ↔
        ((i ∈ s.resolvedFiles.map fun f => f.id) ∧ i ≠ id) := by
      constructor
      · rintro hmem
        obtain ⟨x, hx, rfl⟩ := List.mem_map.mp hmem
        obtain ⟨hx1, hx2⟩ := List.mem_filter.mp hx
        exact ⟨List.mem_map.mpr ⟨x, hx1, rfl⟩, bne_iff_ne.mp hx2⟩
      · rintro ⟨hmem, hne⟩
        obtain ⟨x, hx, rfl⟩ := List.mem_map.mp hmem
        exact List.mem_map.mpr ⟨x, List.mem_filter.mpr ⟨hx, bne_iff_ne.mpr hne⟩, rfl⟩
    show (i ∈ (s.resolvedFiles.filter fun f => f.id != id).map fun f => f.id) ↔ _
    rw [lhs, hproj i]
    constructor
    · rintro ⟨⟨e, he, hei, hsu⟩, hne⟩
      exact ⟨e, List.mem_filter.mpr ⟨he, bne_iff_ne.mpr (hei ▸ hne)⟩, hei, hsu⟩
    · rintro ⟨e, he, hei, hsu⟩
      obtain ⟨he1, he2⟩ := List.mem_filter.mp he
      exact ⟨⟨e, he1, hei, hsu⟩, hei ▸ bne_iff_ne.mp he2⟩

theorem inv_clearFiles (s : AnalyzerState) (h : Inv s) :
    Inv (step s .clearFiles) := by
  obtain ⟨helt, hplt, hnd, hlive, hproj⟩ := h
  constructor
  · intro e he
    cases he
  · intro q hq
    obtain ⟨p, hp, rfl⟩ := List.mem_map.mp hq
    exact hplt p hp
  · show ((s.pending.map fun p => (p.1, true)).map fun p => p.1).Nodup
    rw [List.map_map]
    exact hnd
  · intro q hq hfq
    obtain ⟨p, hp, rfl⟩ := List.mem_map.mp hq
    cases hfq
  · intro i
    constructor
    · intro hi
      cases hi
    · rintro ⟨e, he, _, _⟩
      cases he


theorem inv_completeOk (s : AnalyzerState) (id : Nat) (data : AnalyzeResponse) (h : Inv s) :
    Inv (step s (.completeOk id data)) := by
  obtain ⟨helt, hplt, hnd, hlive, hproj⟩ := h
  simp only [resolvedIds] at hproj
  simp only [step]
  cases hf : s.pending.find? (fun p => p.1 == id) with
  | none => exact ⟨helt, hplt, hnd, hlive, hproj⟩
  | some p =>
      have hpmem := List.mem_of_find?_eq_some hf
      have hpid : p.1 = id := by simpa using List.find?_some hf
      have filt_lt : ∀ q ∈ s.pending.filter (fun q => q.1 != id), q.1 < s.nextId :=
        fun q hq => hplt q (List.mem_of_mem_filter hq)
      have filt_nd : ((s.pending.filter (fun q => q.1 != id)).map fun p => p.1).Nodup :=
        List.Nodup.sublist ((List.filter_sublist _).map _) hnd
      change MultiFileAnalyzer.Inv (if p.2 = true then _ else _)
      by_cases hb : p.2 = true
      · rw [if_pos hb]
        exact ⟨helt, filt_lt, filt_nd,
          fun q hq hfq => hlive q (List.mem_of_mem_filter hq) hfq, hproj⟩
      · rw [if_neg hb]
        have hfalse : p.2 = false := by revert hb; cases p.2 <;> simp
        obtain ⟨⟨e0, he0, he0id⟩, hall⟩ := hlive p hpmem hfalse
        have he0id' : e0.id = id := hpid ▸ he0id
        constructor
        · intro e' he'
          simp only [patchEntrySuccess] at he'
          obtain ⟨a, ha, rfl⟩ := List.mem_map.mp he'
          show (if a.id == id then _ else a).id < s.nextId
          by_cases hai : (a.id == id) = true
          · rw [if_pos hai]; exact helt a ha
          · rw [if_neg hai]; exact helt a ha
        · exact filt_lt
        · exact filt_nd
        · intro q hq hfq
          obtain ⟨hq1, hq2⟩ := List.mem_filter.mp hq
          have hqne : q.1 ≠ id := bne_iff_ne.mp hq2
          obtain ⟨⟨e, he, heid⟩, hall2⟩ := hlive q hq1 hfq
          have hene : ¬(e.id == id) = true := fun hh => hqne (heid ▸ beq_iff_eq.mp hh)
          constructor
          · refine ⟨e, ?_, heid⟩
            simp only [patchEntrySuccess]
            exact List.mem_map.mpr ⟨e, he, by rw [if_neg hene]⟩
          · intro e' he' heid'
            simp only [patchEntrySuccess] at he'
            obtain ⟨a, ha, rfl⟩ := List.mem_map.mp he'
            by_cases hai : (a.id == id) = true
            · rw [if_pos hai] at heid'
              have haq : a.id = q.1 := heid'
              exact absurd (haq ▸ beq_iff_eq.mp hai) hqne
            · rw [if_neg hai] at heid' ⊢
              exact hall2 a ha heid'
        · intro i
          show (i ∈ (upsertResolved id data s.resolvedFiles).map fun f => f.id) ↔ _
          rw [upsert_mem_ids, patchS_exists]
          constructor
          · rintro (rfl | hi)
            · exact Or.inl ⟨rfl, e0, he0, he0id'⟩
            · by_cases hii : i = id
              · exact Or.inl ⟨hii, e0, he0, he0id'⟩
              · obtain ⟨e, he, hei, hsu⟩ := (hproj i).mp hi
                exact Or.inr ⟨hii, e, he, hei, hsu⟩
          · rintro (⟨rfl, _⟩ | ⟨hne, e, he, hei, hsu⟩)
            · exact Or.inl rfl
            · exact Or.inr ((hproj i).mpr ⟨e, he, hei, hsu⟩)

theorem inv_completeErr (s : AnalyzerState) (id : Nat) (msg : String) (h : Inv s) :
    Inv (step s (.completeErr id msg)) := by
  obtain ⟨helt, hplt, hnd, hlive, hproj⟩ := h
  simp only [resolvedIds] at hproj
  simp only [step]
  cases hf : s.pending.find? (fun p => p.1 == id) with
  | none => exact ⟨helt, hplt, hnd, hlive, hproj⟩
  | some p =>
      have hpmem := List.mem_of_find?_eq_some hf
      have hpid : p.1 = id := by simpa using List.find?_some hf
      have filt_lt : ∀ q ∈ s.pending.filter (fun q => q.1 != id), q.1 < s.nextId :=
        fun q hq => hplt q (List.mem_of_mem_filter hq)
      have filt_nd : ((s.pending.filter (fun q => q.1 != id)).map fun p => p.1).Nodup :=
        List.Nodup.sublist ((List.filter_sublist _).map _) hnd
      change MultiFileAnalyzer.Inv (if p.2 = true then _ else _)
      by_cases hb : p.2 = true
      · rw [if_pos hb]
        exact ⟨helt, filt_lt, filt_nd,
          fun q hq hfq => hlive q (List.mem_of_mem_filter hq) hfq, hproj⟩
      · rw [if_neg hb]
        have hfalse : p.2 = false := by revert hb; cases p.2 <;> simp
        obtain ⟨⟨e0, he0, he0id⟩, hall⟩ := hlive p hpmem hfalse
        constructor
        · intro e' he'
          simp only [patchEntryFailure] at he'
          obtain ⟨a, ha, rfl⟩ := List.mem_map.mp he'
          show (if a.id == id then _ else a).id < s.nextId
          by_cases hai : (a.id == id) = true
          · rw [if_pos hai]; exact helt a ha
          · rw [if_neg hai]; exact helt a ha
        · exact filt_lt
        · exact filt_nd
        · intro q hq hfq
          obtain ⟨hq1, hq2⟩ := List.mem_filter.mp hq
          have hqne : q.1 ≠ id := bne_iff_ne.mp hq2
          obtain ⟨⟨e, he, heid⟩, hall2⟩ := hlive q hq1 hfq
          have hene : ¬(e.id == id) = true := fun hh => hqne (heid ▸ beq_iff_eq.mp hh)
          constructor
          · refine ⟨e, ?_, heid⟩
            simp only [patchEntryFailure]
            exact List.mem_map.mpr ⟨e, he, by rw [if_neg hene]⟩
          · intro e' he' heid'
            simp only [patchEntryFailure] at he'
            obtain ⟨a, ha, rfl⟩ := List.mem_map.mp he'
            by_cases hai : (a.id == id) = true
            · rw [if_pos hai] at heid'
              have haq : a.id = q.1 := heid'
              exact absurd (haq ▸ beq_iff_eq.mp hai) hqne
            · rw [if_neg hai] at heid' ⊢
              exact hall2 a ha heid'
        · intro i
          show (i ∈ s.resolvedFiles.map fun f => f.id) ↔ _
          rw [patchF_exists]
          by_cases hii : i = id
          · subst hii
            constructor
            · intro hi
              obtain ⟨e, he, hei, hsu⟩ := (hproj i).mp hi
              have hana : e.analysis.analyzing = true := hall e he (hpid ▸ hei)
              have : isSuccess e.analysis = false := by
                unfold isSuccess
                rw [hana]
                rfl
              rw [this] at hsu
              cases hsu
            · rintro ⟨hne, _⟩
              exact absurd rfl hne
          · rw [hproj i]
            constructor
            · intro he
              exact ⟨hii, he⟩
            · rintro ⟨_, he⟩
              exact he

theorem inv_step (s : AnalyzerState) (e : AEvent) (h : Inv s) : Inv (step s e) := by
  cases e with
  | addFile f => exact inv_addFile s f h
  | completeOk id data => exact inv_completeOk s id data h
  | completeErr id msg => exact inv_completeErr s id msg h
  | removeFile id => exact inv_removeFile s id h
  | clearFiles => exact inv_clearFiles s h

theorem inv_run (tr : List AEvent) :
    ∀ s : AnalyzerState, Inv s → Inv (run s tr) := by
  induction tr with
  | nil => exact fun s h => h
  | cons e es ih => exact fun s h => ih _ (inv_step s e h)

theorem inv_init : Inv initState := by
  constructor
  · intro e he; cases he
  · intro p hp; cases hp
  · exact List.nodup_nil
  · intro p hp; cases hp
  · intro i
    constructor
    · intro hi; cases hi
    · rintro ⟨e, he, _⟩; cases he

theorem inv_reachable (s : AnalyzerState) (h : Reachable s) : Inv s := by
  obtain ⟨tr, rfl⟩ := h
  exact inv_run tr initState inv_init


theorem find?_pending_of_mem (l : List (Nat × Bool)) (hnd : (l.map fun p => p.1).Nodup)
    (id : Nat) (b : Bool) (hmem : (id, b) ∈ l) :
    l.find? (fun p => p.1 == id) = some (id, b) := by
  induction l with
  | nil => cases hmem
  | cons q l ih =>
      rw [List.map_cons] at hnd
      rcases List.mem_cons.mp hmem with heq | hmem'
      · rw [← heq]
        rw [List.find?_cons]
        simp
      · have hq : (q.1 == id) = false := by
          rw [beq_eq_false_iff_ne]
          intro hh
          have hin : id ∈ l.map fun p => p.1 := List.mem_map.mpr ⟨(id, b), hmem', rfl⟩
          exact (List.nodup_cons.mp hnd).1 (hh ▸ hin)
        rw [List.find?_cons, hq]
        exact ih (List.nodup_cons.mp hnd).2 hmem'

/-- C3: in any reachable quiescent state (no analysis in flight), the
resolvedFiles projection holds exactly the ids whose entry's
most-recently-applied analysis outcome is a success; and an arriving
(non-superseded) failure completion moves the task to the failed state and
leaves its id out of the projection. -/
theorem C3_resolved_projection :
    (∀ s : AnalyzerState, Reachable s → s.pending = [] →
        ∀ i, (i ∈ resolvedIds s ↔ i ∈ successIds s)) ∧
    (∀ (s : AnalyzerState) (id : Nat) (msg : String), Reachable s →
        (id, false) ∈ s.pending →
        (∃ e ∈ (step s (.completeErr id msg)).entries,
            e.id = id ∧ e.analysis.analyzing = false ∧ e.analysis.fetchError = some msg) ∧
        id ∉ resolvedIds (step s (.completeErr id msg))) := by
  constructor
  · intro s hs _ i
    have hinv := inv_reachable s hs
    constructor
    · intro hi
      obtain ⟨e, he, hei, hsu⟩ := (hinv.proj i).mp hi
      exact List.mem_map.mpr ⟨e, List.mem_filter.mpr ⟨he, hsu⟩, hei⟩
    · intro hi
      obtain ⟨e, he, hei⟩ := List.mem_map.mp hi
      obtain ⟨he1, he2⟩ := List.mem_filter.mp he
      exact (hinv.proj i).mpr ⟨e, he1, hei, he2⟩
  · intro s id msg hs hmem
    have hinv := inv_reachable s hs
    have hfind : s.pending.find? (fun p => p.1 == id) = some (id, false) :=
      find?_pending_of_mem s.pending (by simpa [pendingIds] using hinv.pending_nodup) id false hmem
    have hstep : step s (.completeErr id msg) =
        { entries := patchEntryFailure id msg s.entries
          resolvedFiles := s.resolvedFiles
          pending := s.pending.filter (fun q => q.1 != id)
          nextId := s.nextId } := by
      simp only [step, hfind]
      rfl
    rw [hstep]
    obtain ⟨⟨e0, he0, he0id⟩, hall⟩ := hinv.live (id, false) hmem rfl
    constructor
    · have hg : (if e0.id == id then
            ({ e0 with analysis :=
              { e0.analysis with
                analyzing := false
                language := "—"
                tokenCount := "—"
                fetchError := some msg } }) else e0) =
          { e0 with analysis :=
            { e0.analysis with
              analyzing := false
              language := "—"
              tokenCount := "—"
              fetchError := some msg } } := if_pos (beq_iff_eq.mpr he0id)
      refine ⟨{ e0 with analysis :=
        { e0.analysis with
          analyzing := false
          language := "—"
          tokenCount := "—"
          fetchError := some msg } }, ?_, he0id, rfl, rfl⟩
      simp only [patchEntryFailure]
      exact List.mem_map.mpr ⟨e0, he0, hg⟩
    · intro hid
      obtain ⟨e, he, hei, hsu⟩ := (hinv.proj id).mp hid
      have hana := hall e he hei
      have hno : isSuccess e.analysis = false := by
        unfold isSuccess
        rw [hana]
        rfl
      rw [hno] at hsu
      cases hsu

theorem C3_resolved_projection_witness :
    (0 ∈ resolvedIds (run initState
        [.addFile ⟨"a.ts", 100⟩, .completeOk 0 ⟨"a.ts", 100, "TypeScript", 42⟩]) ↔
      0 ∈ successIds (run initState
        [.addFile ⟨"a.ts", 100⟩, .completeOk 0 ⟨"a.ts", 100, "TypeScript", 42⟩])) ∧
    (0, false) ∈ (run initState [.addFile ⟨"b.ts", 50⟩]).pending ∧
    0 ∉ resolvedIds (step (run initState [.addFile ⟨"b.ts", 50⟩]) (.completeErr 0 "boom")) :=
  ⟨C3_resolved_projection.1 _
      ⟨[.addFile ⟨"a.ts", 100⟩, .completeOk 0 ⟨"a.ts", 100, "TypeScript", 42⟩], rfl⟩
      (by decide) 0,
   by decide,
   (C3_resolved_projection.2 _ 0 "boom" ⟨[.addFile ⟨"b.ts", 50⟩], rfl⟩ (by decide)).2⟩


theorem pendingIds_removeFile (s : AnalyzerState) (i : Nat) :
    pendingIds (step s (.removeFile i)) = pendingIds s := by
  show (s.pending.map fun p => if p.1 == i then (p.1, true) else p).map (fun p => p.1) = _
  rw [List.map_map]
  have hfun : ((fun p : Nat × Bool => p.1) ∘ fun p : Nat × Bool =>
      if p.1 == i then (p.1, true) else p) = fun p : Nat × Bool => p.1 := by
    funext p
    show (if p.1 == i then (p.1, true) else p).1 = p.1
    by_cases hpi : (p.1 == i) = true
    · rw [if_pos hpi]
    · rw [if_neg hpi]
  rw [hfun]
  rfl

theorem pendingIds_clearFiles (s : AnalyzerState) :
    pendingIds (step s .clearFiles) = pendingIds s := by
  show (s.pending.map fun p => (p.1, true)).map (fun p => p.1) = _
  rw [List.map_map]
  rfl

theorem neverPending_step (id : Nat) (s : AnalyzerState) (e : AEvent)
    (h : neverPending id s) : neverPending id (step s e) := by
  obtain ⟨hlt, hnp⟩ := h
  cases e with
  | addFile f =>
      refine ⟨Nat.lt_succ_of_lt hlt, ?_⟩
      intro hmem
      have hm : id ∈ (if f.size > MAX_BYTES then s.pending
          else s.pending ++ [(s.nextId, false)]).map fun p => p.1 := hmem
      by_cases hsz : f.size > MAX_BYTES
      · rw [if_pos hsz] at hm
        exact hnp hm
      · rw [if_neg hsz, List.map_append] at hm
        rcases List.mem_append.mp hm with h1 | h2
        · exact hnp h1
        · have : id = s.nextId := by simpa using h2
          omega
  | completeOk i data =>
      simp only [step]
      cases hf : s.pending.find? (fun p => p.1 == i) with
      | none => exact ⟨hlt, hnp⟩
      | some p =>
          change neverPending id (if p.2 = true then _ else _)
          have key : id ∉ (s.pending.filter fun q => q.1 != i).map fun p => p.1 := by
            intro hm
            obtain ⟨q, hq, hq1⟩ := List.mem_map.mp hm
            exact hnp (List.mem_map.mpr ⟨q, List.mem_of_mem_filter hq, hq1⟩)
          by_cases hb : p.2 = true
          · rw [if_pos hb]
            exact ⟨hlt, key⟩
          · rw [if_neg hb]
            exact ⟨hlt, key⟩
  | completeErr i msg =>
      simp only [step]
      cases hf : s.pending.find? (fun p => p.1 == i) with
      | none => exact ⟨hlt, hnp⟩
      | some p =>
          change neverPending id (if p.2 = true then _ else _)
          have key : id ∉ (s.pending.filter fun q => q.1 != i).map fun p => p.1 := by
            intro hm
            obtain ⟨q, hq, hq1⟩ := List.mem_map.mp hm
            exact hnp (List.mem_map.mpr ⟨q, List.mem_of_mem_filter hq, hq1⟩)
          by_cases hb : p.2 = true
          · rw [if_pos hb]
            exact ⟨hlt, key⟩
          · rw [if_neg hb]
            exact ⟨hlt, key⟩
  | removeFile i =>
      refine ⟨hlt, ?_⟩
      rw [pendingIds_removeFile]
      exact hnp
  | clearFiles =>
      refine ⟨hlt, ?_⟩
      rw [pendingIds_clearFiles]
      exact hnp

theorem neverPending_run (tr : List AEvent) :
    ∀ s : AnalyzerState, ∀ id : Nat, neverPending id s → neverPending id (run s tr) := by
  induction tr with
  | nil => exact fun s id h => h
  | cons e es ih => exact fun s id h => ih _ id (neverPending_step id s e h)

/-- C5: a file whose byte size exceeds the fixed 10 MiB limit is appended
immediately in a rejected state — `analyzing` false, `sizeError` carrying a
message that contains both the formatted actual size and the `10 MB` limit —
no request is dispatched for it at add time, and its id never acquires an
in-flight request afterwards. -/
theorem C5_local_size_guard :
    ∀ s : AnalyzerState, Reachable s → ∀ f : FileModel, f.size > MAX_BYTES →
      (step s (.addFile f)).entries = s.entries ++ [⟨s.nextId, f, buildInitialAnalysis f⟩] ∧
      (buildInitialAnalysis f).analyzing = false ∧
      (∃ m : String, (buildInitialAnalysis f).sizeError = some m ∧
        (∃ u v : String, m = u ++ formatSize f.size ++ v) ∧
        (∃ u v : String, m = u ++ "10 MB" ++ v)) ∧
      (step s (.addFile f)).pending = s.pending ∧
      (∀ tr : List AEvent, s.nextId ∉ pendingIds (run (step s (.addFile f)) tr)) := by
  intro s hs f hsz
  have hinv := inv_reachable s hs
  have hb : buildInitialAnalysis f =
      { analyzing := false
        language := "—"
        tokenCount := "—"
        fileSize := formatSize f.size
        sizeError := some ("File is too large (" ++ formatSize f.size ++ "). Maximum is 10 MB.")
        fetchError := none } := by
    unfold buildInitialAnalysis
    rw [if_pos hsz]
  have hpe : (step s (.addFile f)).pending = s.pending := by
    show (if f.size > MAX_BYTES then s.pending else _) = s.pending
    rw [if_pos hsz]
  refine ⟨rfl, by rw [hb], ?_, hpe, ?_⟩
  · refine ⟨"File is too large (" ++ formatSize f.size ++ "). Maximum is 10 MB.",
      by rw [hb],
      ⟨"File is too large (", "). Maximum is 10 MB.", rfl⟩,
      ⟨"File is too large (" ++ formatSize f.size ++ "). Maximum is ", ".", ?_⟩⟩
    have h1 : ("). Maximum is 10 MB." : String) = "). Maximum is " ++ "10 MB" ++ "." := by decide
    rw [h1]
    simp only [String.append_assoc]
  · intro tr
    have base : neverPending s.nextId (step s (.addFile f)) := by
      refine ⟨Nat.lt_succ_self _, ?_⟩
      show s.nextId ∉ (step s (.addFile f)).pending.map fun p => p.1
      rw [hpe]
      intro hmem
      obtain ⟨p, hp, hp1⟩ := List.mem_map.mp hmem
      have := hinv.pending_lt p hp
      omega
    exact (neverPending_run tr _ s.nextId base).2

theorem C5_local_size_guard_witness :
    ((20971520 : Nat) > MAX_BYTES) ∧
    (step initState (.addFile ⟨"big.bin", 20971520⟩)).pending = initState.pending ∧
    initState.nextId ∉ pendingIds (run (step initState (.addFile ⟨"big.bin", 20971520⟩)) []) :=
  ⟨by decide,
   (C5_local_size_guard initState ⟨[], rfl⟩ ⟨"big.bin", 20971520⟩ (by decide)).2.2.2.1,
   (C5_local_size_guard initState ⟨[], rfl⟩ ⟨"big.bin", 20971520⟩ (by decide)).2.2.2.2 []⟩

end Theorems
